import Mathlib

/-!
Shallow embedding of `src/service/app.py`, a best-effort W-2 text-extraction
service.  Texts are modelled as Lean strings (lists of characters); the Python
regular expressions of the source are modelled by deterministic scanners that
follow the leftmost-match and greedy/lazy backtracking behaviour of the
specific patterns used in the source.  The character classes `\s`, `\d`, `\w`
of the Python patterns are modelled at ASCII granularity.
-/

set_option autoImplicit false

/-! ### Character classes and Python string primitives -/

/-- ASCII model of the Python regex class `\s` (also used for `str.strip`). -/
def pyIsWs (c : Char) : Bool :=
  c == ' ' || c == '\t' || c == '\n' || c == '\r' || c == '\x0b' || c == '\x0c'

/-- ASCII model of the Python regex class `\w`, used for the `\b` boundary. -/
def pyIsWord (c : Char) : Bool := c.isAlphanum || c == '_'

/-- The class `[\d,]` (equivalently `[0-9,]`) of the money patterns. -/
def digitComma (c : Char) : Bool := c.isDigit || c == ','

/-- `str.strip()` on a character list: drop leading and trailing whitespace. -/
def pyStrip (l : List Char) : List Char :=
  ((l.dropWhile pyIsWs).reverse.dropWhile pyIsWs).reverse

/-- `str.strip()` on strings. -/
def stripStr (s : String) : String := String.mk (pyStrip s.data)

/-- `_first_match` returns `match.group(1).strip()`; this applies the final
`strip` to a raw captured group. -/
def stripGroup (o : Option (List Char)) : Option String :=
  o.map (fun g => String.mk (pyStrip g))

/-! ### Generic scanning helpers (leftmost match of an anchored attempt) -/

/-- `re.search` semantics: try the attempt at every start position, leftmost
first, the empty suffix included. -/
def scanOpt (step : List Char → Option (List Char)) : List Char → Option (List Char)
  | [] => step []
  | c :: rest =>
    match step (c :: rest) with
    | some g => some g
    | none => scanOpt step rest

/-- Consume a literal, case-insensitively (the source compiles every pattern
with `re.IGNORECASE`); return the remaining text. -/
def eatLitCI : List Char → List Char → Option (List Char)
  | [], s => some s
  | _ :: _, [] => none
  | p :: ps, c :: cs => if p.toLower == c.toLower then eatLitCI ps cs else none

/-- Does the literal match here (case-insensitively)? -/
def litAt (lit s : List Char) : Bool :=
  match eatLitCI lit s with
  | some _ => true
  | none => false

/-- `.?` followed by a literal: the greedy optional dot first tries to consume
one (non-newline) character, then falls back to consuming none. -/
def eatDotOptLit (lit : List Char) (s : List Char) : Option (List Char) :=
  match s with
  | [] => eatLitCI lit []
  | c :: rest =>
    if c == '\n' then eatLitCI lit (c :: rest)
    else
      match eatLitCI lit rest with
      | some r => some r
      | none => eatLitCI lit (c :: rest)

/-- `\s+` (greedy): needs at least one whitespace character.  Used where the
following token can never match whitespace, so backtracking is vacuous. -/
def eatWsPlus (s : List Char) : Option (List Char) :=
  match s with
  | [] => none
  | c :: rest => if pyIsWs c then some (rest.dropWhile pyIsWs) else none

/-- Length of the leading whitespace run. -/
def wsCount : List Char → Nat
  | [] => 0
  | c :: rest => if pyIsWs c then wsCount rest + 1 else 0

/-- `\s+([^\n]+)` after a label: the greedy `\s+` first takes the whole
whitespace run, backtracking one character at a time until the group `[^\n]+`
can match at least one character. -/
def tryWsLineGroup (s : List Char) : Nat → Option (List Char)
  | 0 => none
  | Nat.succ k =>
    match s.drop (k + 1) with
    | [] => tryWsLineGroup s k
    | c :: rest =>
      if c == '\n' then tryWsLineGroup s k
      else some ((c :: rest).takeWhile (fun x => x ≠ '\n'))

/-- `([^\n]+)`: a non-empty run of non-newline characters. -/
def lineGroup (tail : List Char) : Option (List Char) :=
  match tail.takeWhile (fun c => c ≠ '\n') with
  | [] => none
  | g => some g

/-- A character-class group `(cls+)`: non-empty greedy run. -/
def clsGroup (cls : Char → Bool) (tail : List Char) : Option (List Char) :=
  match tail.takeWhile cls with
  | [] => none
  | g => some g

/-- `.*?\n(grp)` without `re.DOTALL`: the lazy dot run stops at the first
newline, after which the group must match (no backtracking past `\n` is
possible since `.` does not match a newline). -/
def eatToEol (grp : List Char → Option (List Char)) (s : List Char) : Option (List Char) :=
  match s.dropWhile (fun c => c ≠ '\n') with
  | '\n' :: tail => grp tail
  | _ => none

/-! ### Field patterns of the source -/

/-- Group of `(\d{3}-\d{2}-\d{4})`. -/
def ssnGroup (s : List Char) : Option (List Char) :=
  match s with
  | a :: b :: c :: '-' :: d :: e :: '-' :: f :: g :: h :: i :: _ =>
    if a.isDigit && b.isDigit && c.isDigit && d.isDigit && e.isDigit &&
       f.isDigit && g.isDigit && h.isDigit && i.isDigit
    then some [a, b, c, '-', d, e, '-', f, g, h, i] else none
  | _ => none

/-- `_first_match(r"Employee.?s social security number\s+(\d{3}-\d{2}-\d{4})", text)`. -/
def stepSsnLabel (s : List Char) : Option (List Char) :=
  match eatLitCI "employee".data s with
  | none => none
  | some a =>
    match eatDotOptLit "s social security number".data a with
    | none => none
    | some r =>
      match eatWsPlus r with
      | none => none
      | some r2 => ssnGroup r2

def fmSsnLabel (text : String) : Option String :=
  stripGroup (scanOpt stepSsnLabel text.data)

/-- `(\d{9})` with a trailing `\b`. -/
def nineDigits (s : List Char) : Option (List Char) :=
  match s with
  | a :: b :: c :: d :: e :: f :: g :: h :: i :: rest =>
    if a.isDigit && b.isDigit && c.isDigit && d.isDigit && e.isDigit &&
       f.isDigit && g.isDigit && h.isDigit && i.isDigit then
      match rest with
      | [] => some [a, b, c, d, e, f, g, h, i]
      | x :: _ => if pyIsWord x then none else some [a, b, c, d, e, f, g, h, i]
    else none
  | _ => none

/-- `_first_match(r"\b(\d{9})\b", text)`: scan left to right keeping the
previous character for the leading word boundary. -/
def bare9Aux : Option Char → List Char → Option (List Char)
  | _, [] => none
  | prev, c :: rest =>
    match (if (match prev with | none => true | some p => !pyIsWord p)
           then nineDigits (c :: rest) else none) with
    | some g => some g
    | none => bare9Aux (some c) rest

def fmBare9 (text : String) : Option String :=
  stripGroup (bare9Aux none text.data)

/-- `_first_match(r"Employee.?s first name.*?\n([^\n]+)", text)`. -/
def stepFirstNameLine (s : List Char) : Option (List Char) :=
  match eatLitCI "employee".data s with
  | none => none
  | some a =>
    match eatDotOptLit "s first name".data a with
    | none => none
    | some r => eatToEol lineGroup r

def fmFirstNameLine (text : String) : Option String :=
  stripGroup (scanOpt stepFirstNameLine text.data)

/-- `_first_match(r"Employee.?s name\s+([^\n]+)", text)` (inside `_extract_name`). -/
def stepEmpNameLabel (s : List Char) : Option (List Char) :=
  match eatLitCI "employee".data s with
  | none => none
  | some a =>
    match eatDotOptLit "s name".data a with
    | none => none
    | some r => tryWsLineGroup r (wsCount r)

def fmEmpNameLabel (text : String) : Option String :=
  stripGroup (scanOpt stepEmpNameLabel text.data)

/-- `([0-9,]+(?:\.[0-9]{2})?)`: greedy digit/comma run, then an optional
two-decimal fraction. -/
def moneyGroup (s : List Char) : Option (List Char) :=
  let w := s.takeWhile digitComma
  if w.isEmpty then none
  else
    match s.dropWhile digitComma with
    | '.' :: d1 :: d2 :: _ =>
      if d1.isDigit && d2.isDigit then some (w ++ ['.', d1, d2]) else some w
    | _ => some w

/-- `_extract_money`: pattern `label\s*\$?([0-9,]+(?:\.[0-9]{2})?)`
(`re.escape` makes the label a literal). -/
def stepMoney (label : List Char) (s : List Char) : Option (List Char) :=
  match eatLitCI label s with
  | none => none
  | some r =>
    let r1 := r.dropWhile pyIsWs
    let r2 := match r1 with
      | '$' :: t => t
      | _ => r1
    moneyGroup r2

def extractMoney (label text : String) : Option String :=
  stripGroup (scanOpt (stepMoney label.data) text.data)

/-- `_first_match(r"MAPFML:\s*([0-9,]+(?:\.[0-9]{2})?)", text)`. -/
def stepMapfml (s : List Char) : Option (List Char) :=
  match eatLitCI "mapfml:".data s with
  | none => none
  | some r => moneyGroup (r.dropWhile pyIsWs)

def fmMapfml (text : String) : Option String :=
  stripGroup (scanOpt stepMapfml text.data)

/-- `_first_match(r"Employer identification number.*?\n([^\n]+)", text)`
(the wages-line anchor). -/
def stepEinLine (s : List Char) : Option (List Char) :=
  match eatLitCI "employer identification number".data s with
  | none => none
  | some r => eatToEol lineGroup r

def fmEinLine (text : String) : Option String :=
  stripGroup (scanOpt stepEinLine text.data)

/-- The class `[A-Z0-9 &.,'\-]` under `re.IGNORECASE`. -/
def employerCls (c : Char) : Bool :=
  c.isAlpha || c.isDigit || c == ' ' || c == '&' || c == '.' || c == ',' ||
  c == '\'' || c == '-'

/-- `_first_match(r"Employer.?s name.*?\n([A-Z0-9 &.,'\-]+)", text)`. -/
def stepEmployerName (s : List Char) : Option (List Char) :=
  match eatLitCI "employer".data s with
  | none => none
  | some a =>
    match eatDotOptLit "s name".data a with
    | none => none
    | some r => eatToEol (clsGroup employerCls) r

def fmEmployerName (text : String) : Option String :=
  stripGroup (scanOpt stepEmployerName text.data)

/-- `(\d{9})` with no boundary (second alternative of the EIN group). -/
def einNine (s : List Char) : Option (List Char) :=
  match s with
  | a :: b :: c :: d :: e :: f :: g :: h :: i :: _ =>
    if a.isDigit && b.isDigit && c.isDigit && d.isDigit && e.isDigit &&
       f.isDigit && g.isDigit && h.isDigit && i.isDigit
    then some [a, b, c, d, e, f, g, h, i] else none
  | _ => none

/-- `(\d{2}-\d{7}|\d{9})`: the alternation tries the dashed form first. -/
def einGroup (s : List Char) : Option (List Char) :=
  match s with
  | a :: b :: '-' :: c :: d :: e :: f :: g :: h :: i :: _ =>
    if a.isDigit && b.isDigit && c.isDigit && d.isDigit && e.isDigit &&
       f.isDigit && g.isDigit && h.isDigit && i.isDigit
    then some [a, b, '-', c, d, e, f, g, h, i] else einNine s
  | _ => einNine s

/-- `_first_match(r"Employer identification number.*?\n(\d{2}-\d{7}|\d{9})", text)`. -/
def stepEmployerEin (s : List Char) : Option (List Char) :=
  match eatLitCI "employer identification number".data s with
  | none => none
  | some r => eatToEol einGroup r

def fmEmployerEin (text : String) : Option String :=
  stripGroup (scanOpt stepEmployerEin text.data)

/-! ### `re.sub` tails and normalisation -/

/-- Does `\d[\d,]*\.\d{2}` match at the head? (No useful backtracking: the
greedy `[\d,]*` run cannot be shortened onto a `.`.) -/
def decimalTokenAt (s : List Char) : Bool :=
  match s with
  | [] => false
  | c :: rest =>
    c.isDigit &&
      (match rest.dropWhile digitComma with
       | '.' :: d1 :: d2 :: _ => d1.isDigit && d2.isDigit
       | _ => false)

/-- `re.sub(r"\s+\d[\d,]*\.\d{2}.*$", "", s)` for the newline-free strings it
is applied to (the employer-name line): cut at the first position where a
whitespace run is followed by a decimal-with-cents token. -/
def subMoneyTail : List Char → List Char
  | [] => []
  | c :: rest =>
    if pyIsWs c && decimalTokenAt ((c :: rest).dropWhile pyIsWs) then []
    else c :: subMoneyTail rest

/-- Does the literal `0.00` start here? -/
def zeroTailAt (s : List Char) : Bool :=
  match s with
  | '0' :: '.' :: '0' :: '0' :: _ => true
  | _ => false

/-- `re.sub(r"\s+0\.00.*$", "", s)` for the newline-free strings it is applied
to (the employee name line). -/
def subZeroSuffix : List Char → List Char
  | [] => []
  | c :: rest =>
    if pyIsWs c && zeroTailAt ((c :: rest).dropWhile pyIsWs) then []
    else c :: subZeroSuffix rest

/-- `re.sub(r"\s+", " ", text)`: collapse every whitespace run to one space. -/
def collapseWsAux : List Char → Bool → List Char
  | [], _ => []
  | c :: rest, inRun =>
    if pyIsWs c then
      if inRun then collapseWsAux rest true
      else ' ' :: collapseWsAux rest true
    else c :: collapseWsAux rest false

/-- `_normalize_text`. -/
def normalizeText (text : String) : String :=
  String.mk (pyStrip (collapseWsAux text.data false))

/-! ### Name parsing (`_extract_name`) -/

structure NameParts where
  first : Option String
  middle : Option String
  last : Option String
deriving DecidableEq

/-- Maximal non-whitespace runs of a character list, left to right. -/
def wsTokensAux : List Char → List Char → List String
  | [], acc => if acc.isEmpty then [] else [String.mk acc.reverse]
  | c :: rest, acc =>
    if pyIsWs c then
      if acc.isEmpty then wsTokensAux rest []
      else String.mk acc.reverse :: wsTokensAux rest []
    else wsTokensAux rest (c :: acc)

def wsTokens (l : List Char) : List String := wsTokensAux l []

/-- `re.split(r"\s+", name.strip())`: on an all-whitespace input Python
returns `[""]`; otherwise the whitespace-separated words. -/
def splitWsStripped (name : String) : List String :=
  if pyStrip name.data = [] then [""] else wsTokens (pyStrip name.data)

/-- Lines 63-72 of the source: split the candidate and distribute the parts.
The `[]` branch is unreachable (`re.split` never returns an empty list). -/
def parseNameCandidate (name : String) : NameParts :=
  if name == "" then ⟨none, none, none⟩
  else
    match splitWsStripped name with
    | [] => ⟨none, none, none⟩
    | [p] => ⟨some p, none, none⟩
    | [p, q] => ⟨some p, none, some q⟩
    | p :: q :: r :: rest =>
      ⟨some p, some (String.intercalate " " (q :: r :: rest).dropLast),
        some ((q :: r :: rest).getLastD "")⟩

/-- `_extract_name`. -/
def extractName (text : String) : NameParts :=
  let name : String :=
    match fmEmpNameLabel text with
    | some g => if g == "" then stripStr text else g
    | none => stripStr text
  parseNameCandidate name

/-! ### Section splitting (`_split_employee_sections`) -/

/-- Length of a match of `Employee'?s name|Employee'?s SSN` for the text after
the literal `Employee`: the greedy `'?` first consumes an apostrophe. -/
def markerBranchLen (tail after8 : List Char) : Option Nat :=
  match after8 with
  | '\'' :: r =>
    if litAt tail r then some (1 + tail.length)
    else if litAt tail after8 then some tail.length else none
  | _ => if litAt tail after8 then some tail.length else none

/-- Total length of a marker match at the head, if any; the alternation tries
the `name` branch first. -/
def markerLenAt (s : List Char) : Option Nat :=
  match eatLitCI "employee".data s with
  | none => none
  | some after8 =>
    match markerBranchLen "s name".data after8 with
    | some l => some (8 + l)
    | none =>
      match markerBranchLen "s ssn".data after8 with
      | some l => some (8 + l)
      | none => none

/-- `re.finditer` start offsets: non-overlapping matches, left to right; after
a match of length `L`, scanning resumes after its end. -/
def markerScanAux : List Char → Nat → Nat → List Nat
  | [], _, _ => []
  | _ :: rest, i, Nat.succ k => markerScanAux rest (i + 1) k
  | c :: rest, i, 0 =>
    match markerLenAt (c :: rest) with
    | some l => i :: markerScanAux rest (i + 1) (l - 1)
    | none => markerScanAux rest (i + 1) 0

def markerStarts (text : String) : List Nat := markerScanAux text.data 0 0

/-- `text[start:end]` slices for consecutive marker starts; the last section
runs to the end of the text. -/
def slicesFrom (s : List Char) : List Nat → List (List Char)
  | [] => []
  | [a] => [s.drop a]
  | a :: b :: rest => ((s.drop a).take (b - a)) :: slicesFrom s (b :: rest)

/-- `_split_employee_sections`. -/
def splitEmployeeSections (text : String) : List String :=
  match markerStarts text with
  | [] => [text]
  | starts => (slicesFrom text.data starts).map String.mk

/-! ### State wages / state income tax (`_extract_state_wages_and_tax`) -/

/-- Suffix just after the first case-insensitive occurrence of a literal. -/
def findCISuffix (lit : List Char) : List Char → Option (List Char)
  | [] => eatLitCI lit []
  | c :: rest =>
    match eatLitCI lit (c :: rest) with
    | some after => some after
    | none => findCISuffix lit rest

/-- First newline that is followed by a non-newline character; returns the
(maximal, non-empty) line after it.  This is the `.*?\n([^\n]+)` tail of the
`re.DOTALL` state pattern. -/
def goodNlLine : List Char → Option (List Char)
  | [] => none
  | c :: rest =>
    if c == '\n' then
      match rest with
      | [] => none
      | d :: _ =>
        if d == '\n' then goodNlLine rest
        else some (rest.takeWhile (fun x => x ≠ '\n'))
    else goodNlLine rest

/-- `re.search(r"16 State wages.*?17 State income tax.*?\n([^\n]+)", text,
re.IGNORECASE | re.DOTALL)`: by monotonicity of the lazy gaps the leftmost
match is the first-occurrence chain. -/
def stateCaptionLine (text : String) : Option String :=
  match findCISuffix "16 state wages".data text.data with
  | none => none
  | some after16 =>
    match findCISuffix "17 state income tax".data after16 with
    | none => none
    | some after17 =>
      match goodNlLine after17 with
      | none => none
      | some line => some (String.mk line)

/-- `re.findall(r"\d[\d,]*\.\d{2}", line)`: non-overlapping matches, scanning
left to right, resuming after each match end; on failure advance one char. -/
def fdtAux : List Char → Nat → List String
  | [], _ => []
  | _ :: rest, Nat.succ k => fdtAux rest k
  | c :: rest, 0 =>
    if c.isDigit then
      let run := rest.takeWhile digitComma
      match rest.dropWhile digitComma with
      | '.' :: d1 :: d2 :: _ =>
        if d1.isDigit && d2.isDigit then
          String.mk (c :: (run ++ ['.', d1, d2])) :: fdtAux rest (run.length + 3)
        else fdtAux rest 0
      | _ => fdtAux rest 0
    else fdtAux rest 0

def findDecimalTokens (l : List Char) : List String := fdtAux l 0

/-- `_extract_state_wages_and_tax`; the pair is
`(state_wages, state_withheld)`. -/
def extractStateWagesAndTax (text : String) : Option String × Option String :=
  match stateCaptionLine text with
  | none => (none, none)
  | some line =>
    match findDecimalTokens line.data with
    | a :: b :: _ => (some a, some b)
    | _ => (none, none)

/-! ### Employer info (`_extract_employer_info`) -/

structure EmployerInfo where
  employer_name : Option String
  employer_ein : Option String
deriving DecidableEq

def extractEmployerInfo (text : String) : EmployerInfo :=
  let employerName : Option String :=
    match fmEmployerName text with
    | some r => if r == "" then none else some (String.mk (pyStrip (subMoneyTail r.data)))
    | none => none
  { employer_name := employerName, employer_ein := fmEmployerEin text }

/-! ### Per-page employee extraction (`_extract_employee_from_page`) -/

structure Emp where
  ssn : Option String
  first : Option String
  middle : Option String
  last : Option String
  wages : Option String
  state_wages : Option String
  state_withheld : Option String
  mapfml : Option String
deriving DecidableEq

/-- Python truthiness of an optional string (`None` and `""` are falsy). -/
def truthyO : Option String → Bool
  | some s => !(s == "")
  | none => false

/-- `x or y` on optional strings (`x` kept only when truthy). -/
def pyOrOpt (a b : Option String) : Option String :=
  match a with
  | some s => if s == "" then b else a
  | none => b

/-- `any(employee.values())`. -/
def anyTruthy (e : Emp) : Bool :=
  truthyO e.ssn || truthyO e.first || truthyO e.middle || truthyO e.last ||
  truthyO e.wages || truthyO e.state_wages || truthyO e.state_withheld ||
  truthyO e.mapfml

def extractEmployeeFromPage (text : String) : Emp :=
  let norm := normalizeText text
  let ssn := pyOrOpt (fmSsnLabel text) (fmBare9 text)
  let name : NameParts :=
    match fmFirstNameLine text with
    | some nl =>
      if nl == "" then extractName text
      else extractName (String.mk (pyStrip (subZeroSuffix nl.data)))
    | none => extractName text
  let wages : Option String :=
    match fmEinLine text with
    | some wl => if wl == "" then none else (findDecimalTokens wl.data).head?
    | none => none
  let st := extractStateWagesAndTax text
  { ssn := ssn
    first := name.first
    middle := name.middle
    last := name.last
    wages := pyOrOpt wages (extractMoney "Wages, tips, other comp" norm)
    state_wages := st.1
    state_withheld := st.2
    mapfml := fmMapfml text }

/-! ### Pipeline (`_extract_employees_from_pages`) -/

/-- Substring test (`sub in s` in Python, case-sensitive). -/
def strContainsAux (pat : List Char) : List Char → Bool
  | [] => pat.isEmpty
  | c :: rest => pat.isPrefixOf (c :: rest) || strContainsAux pat rest

def strContains (s sub : String) : Bool := strContainsAux sub.data s.data

/-- The page filter of lines 175-179: contains both `"W-2"` and `"Employee"`. -/
def isW2Page (p : String) : Bool := strContains p "W-2" && strContains p "Employee"

/-- Python `f"{x}"` on an optional string (`None` prints as `"None"`). -/
def pyOptStr : Option String → String
  | some s => s
  | none => "None"

/-- `f"{emp.get('first')}-{emp.get('last')}"`. -/
def nameKey (e : Emp) : String := pyOptStr e.first ++ "-" ++ pyOptStr e.last

/-- `emp.get("ssn") or f"{emp.get('first')}-{emp.get('last')}"`. -/
def identityKey (e : Emp) : String :=
  match e.ssn with
  | some s => if s == "" then nameKey e else s
  | none => nameKey e

/-- The dedup loop of lines 198-205, with the `seen` set as a key list. -/
def dedupAux : List Emp → List String → List Emp
  | [], _ => []
  | e :: rest, seen =>
    if seen.contains (identityKey e) then dedupAux rest seen
    else e :: dedupAux rest (identityKey e :: seen)

def dedup (l : List Emp) : List Emp := dedupAux l []

/-- Extract one record per unit of text, keeping it only when some field is
truthy (used for the section loop, and for whole W-2 pages). -/
def emitRecords : List String → List Emp
  | [] => []
  | p :: rest =>
    if anyTruthy (extractEmployeeFromPage p) then
      extractEmployeeFromPage p :: emitRecords rest
    else emitRecords rest

/-- The page loop of lines 183-195. -/
def buildEmployees (w2Pages : List String) : List String → List Emp
  | [] => []
  | p :: rest =>
    if (pyStrip p.data).isEmpty then buildEmployees w2Pages rest
    else if w2Pages.contains p then
      (if anyTruthy (extractEmployeeFromPage p) then
        extractEmployeeFromPage p :: buildEmployees w2Pages rest
      else buildEmployees w2Pages rest)
    else emitRecords (splitEmployeeSections p) ++ buildEmployees w2Pages rest

def extractEmployeesFromPages (pages : List String) : List Emp :=
  let w2Pages := pages.filter isW2Page
  let targetPages := if w2Pages.isEmpty then pages else w2Pages
  dedup (buildEmployees w2Pages targetPages)

/-! ### The HTTP endpoint (`extract`) -/

/-- Outcome of one text-extraction backend, abstracting the external library:
`unavailable` models an import failure (caught by the source's `try`),
`raised` models the library throwing on the document bytes (NOT caught by the
source), `pages` the extracted per-page texts. -/
inductive BackRes where
  | unavailable : BackRes
  | raised : BackRes
  | pages : List String → BackRes
deriving DecidableEq

/-- `_extract_pages_pdfplumber` / `_extract_pages_pymupdf` result: the final
`return text_parts if any(part.strip() for part in text_parts) else None`,
with an uncaught exception propagating as `Except.error`. -/
def backendResult : BackRes → Except Unit (Option (List String))
  | .unavailable => .ok none
  | .raised => .error ()
  | .pages parts =>
    .ok (if parts.any (fun p => !(stripStr p == "")) then some parts else none)

/-- Python falsiness of the `pages` value (`None` or `[]`). -/
def pyFalsy : Option (List String) → Bool
  | none => true
  | some l => l.isEmpty

structure Fields where
  employer : EmployerInfo
  employees : List Emp
deriving DecidableEq

inductive ExtractResponse where
  | failure : Nat → String → ExtractResponse
  | success : String → Fields → List String → ExtractResponse
deriving DecidableEq

def noTextMsg : String := "Unable to extract text. Install pdfplumber or PyMuPDF."

def bestEffortWarning : String :=
  "Extraction is best-effort. Please verify all fields before generating the W-2 file."

/-- Did a backend yield at least one page with non-whitespace content? -/
def backendYields : BackRes → Bool
  | .pages parts => parts.any (fun p => !(stripStr p == ""))
  | _ => false

/-- The `extract` endpoint of lines 212-243, over the outcomes of the two
backends (pdfplumber tried first, pymupdf only when the first result is
falsy); an uncaught backend exception propagates. -/
def extractEndpointE (a b : BackRes) : Except Unit ExtractResponse :=
  match backendResult a with
  | .error e => .error e
  | .ok p1 =>
    match (if pyFalsy p1 then
             match backendResult b with
             | .error e => Except.error e
             | .ok p2 => Except.ok (p2, "pymupdf")
           else Except.ok (p1, "pdfplumber")) with
    | .error e => .error e
    | .ok (pages, method) =>
      if pyFalsy pages then .ok (.failure 422 noTextMsg)
      else
        let ps := pages.getD []
        .ok (.success method
          { employer := extractEmployerInfo (String.intercalate "\n" ps)
            employees := extractEmployeesFromPages ps }
          [bestEffortWarning])

/-! ### Spec-side definitions used for refinement statements -/

/-- Modelled from the spec (§3): the dedup identity key, "SSN if present,
else `first-last`". -/
def specKey (e : Emp) : String :=
  match e.ssn with
  | some s => s
  | none => nameKey e

/-- Modelled from the spec (§4.8): keep a record exactly when no earlier
record of the input sequence has the same key; order and records unchanged. -/
def keepFirstByAux (k : Emp → String) : List Emp → List Emp → List Emp
  | [], _ => []
  | e :: rest, earlier =>
    if earlier.any (fun y => k y == k e) then keepFirstByAux k rest (earlier ++ [e])
    else e :: keepFirstByAux k rest (earlier ++ [e])

def keepFirstBy (k : Emp → String) (l : List Emp) : List Emp := keepFirstByAux k l []

/-! ## Theorems -/

/-! ### Generic list/slice lemmas -/

theorem slicesFrom_length (s : List Char) :
    ∀ starts : List Nat, (slicesFrom s starts).length = starts.length
  | [] => rfl
  | [_] => rfl
  | _ :: b :: rest => by
    simp [slicesFrom, slicesFrom_length s (b :: rest)]

theorem slicesFrom_join (s : List Char) :
    ∀ starts : List Nat, List.Chain' (· ≤ ·) starts → starts ≠ [] →
      (slicesFrom s starts).flatten = s.drop (starts.headD 0)
  | [], _, h => absurd rfl h
  | [a], _, _ => by simp [slicesFrom]
  | a :: b :: rest, h, _ => by
    rw [List.chain'_cons] at h
    have ih := slicesFrom_join s (b :: rest) h.2 (List.cons_ne_nil _ _)
    simp only [slicesFrom, List.flatten_cons, ih, List.headD_cons]
    have hdrop : List.drop (b - a) (List.drop a s) = List.drop b s := by
      rw [List.drop_drop, Nat.add_sub_cancel' h.1]
    rw [← hdrop, List.take_append_drop]

theorem markerScanAux_ge :
    ∀ (s : List Char) (i k : Nat), ∀ x ∈ markerScanAux s i k, i ≤ x := by
  intro s
  induction s with
  | nil => intro i k x hx; simp [markerScanAux] at hx
  | cons c rest ih =>
    intro i k x hx
    match k with
    | Nat.succ k0 =>
      rw [show markerScanAux (c :: rest) i (Nat.succ k0) = markerScanAux rest (i + 1) k0 from rfl] at hx
      exact Nat.le_of_succ_le (ih (i + 1) k0 x hx)
    | 0 =>
      rw [show markerScanAux (c :: rest) i 0 =
            (match markerLenAt (c :: rest) with
             | some l => i :: markerScanAux rest (i + 1) (l - 1)
             | none => markerScanAux rest (i + 1) 0) from rfl] at hx
      cases hm : markerLenAt (c :: rest) with
      | some l =>
        rw [hm] at hx
        rcases List.mem_cons.mp hx with h | h
        · exact h.ge
        · exact Nat.le_of_succ_le (ih (i + 1) (l - 1) x h)
      | none =>
        rw [hm] at hx
        exact Nat.le_of_succ_le (ih (i + 1) 0 x hx)

theorem markerScanAux_chain :
    ∀ (s : List Char) (i k : Nat), List.Chain' (· ≤ ·) (markerScanAux s i k) := by
  intro s
  induction s with
  | nil => intro i k; simp [markerScanAux]
  | cons c rest ih =>
    intro i k
    match k with
    | Nat.succ k0 => exact ih (i + 1) k0
    | 0 =>
      rw [show markerScanAux (c :: rest) i 0 =
            (match markerLenAt (c :: rest) with
             | some l => i :: markerScanAux rest (i + 1) (l - 1)
             | none => markerScanAux rest (i + 1) 0) from rfl]
      cases hm : markerLenAt (c :: rest) with
      | some l =>
        refine List.chain'_cons'.mpr ⟨?_, ih (i + 1) (l - 1)⟩
        intro y hy
        have hmem : y ∈ markerScanAux rest (i + 1) (l - 1) := List.mem_of_mem_head? hy
        exact Nat.le_of_succ_le (markerScanAux_ge rest (i + 1) (l - 1) y hmem)
      | none => exact ih (i + 1) 0

theorem join_foldl_mk (l : List (List Char)) :
    ∀ acc : String, (l.map String.mk).foldl (· ++ ·) acc = String.mk (acc.data ++ l.flatten) := by
  induction l with
  | nil => intro acc; simp
  | cons x rest ih =>
    intro acc
    simp only [List.map_cons, List.foldl_cons, ih (acc ++ String.mk x), List.flatten_cons]
    congr 1
    simp [String.data_append]

theorem join_map_mk (l : List (List Char)) :
    String.join (l.map String.mk) = String.mk l.flatten := by
  show (l.map String.mk).foldl (· ++ ·) "" = String.mk l.flatten
  rw [join_foldl_mk]
  rfl

/-! ### C1: section splitting -/

/-- C1 (counterexample): concatenating the sections does NOT always
reconstruct the original page text: the text before the first employee marker
is dropped (`sections` start at `markers[0].start()`, not at offset 0). -/
theorem split_sections_not_reconstruct :
    String.join (splitEmployeeSections "xEmployees name A") ≠ "xEmployees name A" := by
  decide

/-- C1 (amended): concatenating all sections, in order, yields the original
page text from the position of the first marker onward (the prefix before the
first marker is dropped); with zero markers the whole page is the single
section, and otherwise there is exactly one section per marker (so no marker
is dropped and no two sections overlap). -/
theorem split_sections_amended (text : String) :
    String.join (splitEmployeeSections text) =
      String.mk (text.data.drop ((markerStarts text).headD 0)) ∧
    (splitEmployeeSections text).length = max 1 (markerStarts text).length := by
  unfold splitEmployeeSections
  cases hs : markerStarts text with
  | nil =>
    constructor
    · apply String.ext
      rw [show String.join [text] = "" ++ text from rfl]
      simp [String.data_append]
    · rfl
  | cons a rest =>
    have hchain : List.Chain' (· ≤ ·) (a :: rest) := by
      rw [← hs]; exact markerScanAux_chain text.data 0 0
    constructor
    · rw [join_map_mk, slicesFrom_join text.data (a :: rest) hchain (List.cons_ne_nil _ _)]
    · rw [List.length_map, slicesFrom_length]
      simp [Nat.max_eq_right, Nat.succ_le_succ]

/-! ### C6: state wages / state income tax -/

/-- C6: for any text on which the combined box-16/box-17 caption pattern
matches with following line `line`: if that line holds fewer than two
decimal-with-cents tokens both fields are `None`; with two or more, the first
token becomes `state_wages` and the second `state_withheld`, in left-to-right
order. -/
theorem state_wages_pair_rule (text line : String)
    (h : stateCaptionLine text = some line) :
    ((findDecimalTokens line.data).length < 2 →
      extractStateWagesAndTax text = (none, none)) ∧
    (∀ a b rest, findDecimalTokens line.data = a :: b :: rest →
      extractStateWagesAndTax text = (some a, some b)) := by
  have hval : extractStateWagesAndTax text =
      (match findDecimalTokens line.data with
       | a :: b :: _ => (some a, some b)
       | _ => (none, none)) := by
    unfold extractStateWagesAndTax
    rw [h]
  constructor
  · intro hlen
    rw [hval]
    cases hnums : findDecimalTokens line.data with
    | nil => rfl
    | cons a t =>
      cases t with
      | nil => rfl
      | cons b t2 =>
        rw [hnums] at hlen
        simp only [List.length_cons] at hlen
        omega
  · intro a b rest hnums
    rw [hval, hnums]

/-- C6 witness at a concrete section text. -/
theorem state_wages_pair_rule_witness :
    stateCaptionLine "16 State wages x 17 State income tax\nMA 100.00 7.00" =
      some "MA 100.00 7.00" ∧
    extractStateWagesAndTax "16 State wages x 17 State income tax\nMA 100.00 7.00" =
      (some "100.00", some "7.00") :=
  ⟨by decide,
    (state_wages_pair_rule "16 State wages x 17 State income tax\nMA 100.00 7.00"
      "MA 100.00 7.00" (by decide)).2 "100.00" "7.00" [] (by decide)⟩

/-! ### C4, C5: deduplication -/

theorem any_key_congr (k1 k2 : Emp → String) (e : Emp) (l : List Emp)
    (hl : ∀ x ∈ l, k1 x = k2 x) (he : k1 e = k2 e) :
    l.any (fun y => k1 y == k1 e) = l.any (fun y => k2 y == k2 e) := by
  induction l with
  | nil => rfl
  | cons x rest ih =>
    have hx : k1 x = k2 x := hl x (List.mem_cons_self _ _)
    have hrest : ∀ y ∈ rest, k1 y = k2 y := fun y hy => hl y (List.mem_cons_of_mem _ hy)
    have ih2 := ih hrest
    rw [he] at ih2
    simp only [List.any_cons, hx, he, ih2]

theorem keepFirstByAux_congr (k1 k2 : Emp → String) :
    ∀ (l earlier : List Emp), (∀ x ∈ l, k1 x = k2 x) → (∀ x ∈ earlier, k1 x = k2 x) →
      keepFirstByAux k1 l earlier = keepFirstByAux k2 l earlier := by
  intro l
  induction l with
  | nil => intro earlier _ _; rfl
  | cons e rest ih =>
    intro earlier h1 h2
    have he : k1 e = k2 e := h1 e (List.mem_cons_self _ _)
    have hrest : ∀ x ∈ rest, k1 x = k2 x := fun x hx => h1 x (List.mem_cons_of_mem _ hx)
    have hboth : ∀ x ∈ earlier ++ [e], k1 x = k2 x := by
      intro x hx
      rcases List.mem_append.mp hx with h | h
      · exact h2 x h
      · rw [List.mem_singleton.mp h]; exact he
    simp only [keepFirstByAux, any_key_congr k1 k2 e earlier h2 he, ih (earlier ++ [e]) hrest hboth]

theorem dedupAux_eq_keepFirst :
    ∀ (l : List Emp) (seen : List String) (earlier : List Emp),
      (∀ e : Emp, seen.contains (identityKey e)
          = earlier.any (fun y => identityKey y == identityKey e)) →
      dedupAux l seen = keepFirstByAux identityKey l earlier := by
  intro l
  induction l with
  | nil => intro seen earlier _; rfl
  | cons e rest ih =>
    intro seen earlier hinv
    have hinv' : ∀ x : Emp,
        seen.contains (identityKey x)
          = (earlier ++ [e]).any (fun y => identityKey y == identityKey x)
          ∨ identityKey e = identityKey x := by
      intro x
      by_cases hk : identityKey e = identityKey x
      · exact Or.inr hk
      · left
        rw [List.any_append, hinv x]
        have : ([e].any (fun y => identityKey y == identityKey x)) = false := by
          simp [hk]
        rw [this, Bool.or_false]
    simp only [dedupAux, keepFirstByAux, hinv e]
    by_cases hc : earlier.any (fun y => identityKey y == identityKey e) = true
    · rw [if_pos hc, if_pos hc]
      apply ih
      intro x
      rcases hinv' x with h | h
      · exact h
      · rw [hinv x, List.any_append]
        have h1 : [e].any (fun y => identityKey y == identityKey x) = true := by simp [h]
        have h2 : earlier.any (fun y => identityKey y == identityKey x) = true := by
          rw [← h]
          exact hc
        simp [h1, h2]
    · rw [if_neg hc, if_neg hc]
      congr 1
      apply ih
      intro x
      show (identityKey e :: seen).contains (identityKey x)
          = (earlier ++ [e]).any (fun y => identityKey y == identityKey x)
      rw [List.contains_cons]
      rw [List.any_append, hinv x]
      have hsym : (identityKey x == identityKey e)
          = ([e].any (fun y => identityKey y == identityKey x)) := by
        simp [beq_iff_eq, eq_comm]
      rw [hsym, Bool.or_comm]

theorem identityKey_eq_specKey (e : Emp) (h : e.ssn ≠ some "") :
    identityKey e = specKey e := by
  unfold identityKey specKey
  cases hs : e.ssn with
  | none => rfl
  | some s =>
    have hne : ¬ s = "" := by
      intro hc
      exact h (by rw [hs, hc])
    simp [hne]

/-- C4: over any sequence of emitted records (whose SSN field, when present,
is a non-empty string, as every record emitted by the pipeline satisfies),
the dedup loop computes the identity key as the spec states (SSN if present,
else the `first-last` string), keeps exactly the first record per key, drops
every later record whose key repeats, and preserves first-seen order without
merging records (`keepFirstBy` keeps a record unchanged exactly when no
earlier record of the input shares its key). -/
theorem dedup_keeps_first_per_key (l : List Emp) (h : ∀ e ∈ l, e.ssn ≠ some "") :
    dedup l = keepFirstBy specKey l := by
  have h1 : dedup l = keepFirstByAux identityKey l [] :=
    dedupAux_eq_keepFirst l [] [] (fun _ => rfl)
  rw [h1]
  exact keepFirstByAux_congr identityKey specKey l []
    (fun x hx => identityKey_eq_specKey x (h x hx)) (by intro x hx; simp at hx)

/-- C4 witness at a concrete record list (a repeated SSN and a fresh record). -/
theorem dedup_keeps_first_per_key_witness :
    (∀ e ∈ [Emp.mk (some "123-45-6789") (some "A") none none none none none none,
            Emp.mk (some "123-45-6789") (some "B") none none none none none none,
            Emp.mk none (some "C") (some "D") none none none none none],
        e.ssn ≠ some "") ∧
    dedup [Emp.mk (some "123-45-6789") (some "A") none none none none none none,
           Emp.mk (some "123-45-6789") (some "B") none none none none none none,
           Emp.mk none (some "C") (some "D") none none none none none]
      = keepFirstBy specKey
          [Emp.mk (some "123-45-6789") (some "A") none none none none none none,
           Emp.mk (some "123-45-6789") (some "B") none none none none none none,
           Emp.mk none (some "C") (some "D") none none none none none] :=
  ⟨by decide, dedup_keeps_first_per_key _ (by decide)⟩

theorem dedupAux_idem :
    ∀ (l : List Emp) (seen : List String), dedupAux (dedupAux l seen) seen = dedupAux l seen := by
  intro l
  induction l with
  | nil => intro seen; rfl
  | cons e rest ih =>
    intro seen
    have hunf : ∀ (l2 : List Emp) (s2 : List String),
        dedupAux (e :: l2) s2 =
          if s2.contains (identityKey e) = true then dedupAux l2 s2
          else e :: dedupAux l2 (identityKey e :: s2) := fun _ _ => rfl
    by_cases hc : seen.contains (identityKey e) = true
    · rw [hunf rest seen, if_pos hc]
      exact ih seen
    · rw [hunf rest seen, if_neg hc,
        hunf (dedupAux rest (identityKey e :: seen)) seen, if_neg hc,
        ih (identityKey e :: seen)]

/-- C5: deduplication is idempotent: applying the dedup loop to its own
output returns that output unchanged. -/
theorem dedup_idempotent (l : List Emp) : dedup (dedup l) = dedup l :=
  dedupAux_idem l []

/-! ### Whitespace-strip and tokenisation lemmas -/

theorem ws_false_not (c : Char) (hc : pyIsWs c = false) : ¬ pyIsWs c = true := by
  rw [hc]
  exact Bool.false_ne_true

theorem dropWhile_ws_head (l : List Char) :
    l.dropWhile pyIsWs = [] ∨
      ∃ c t, l.dropWhile pyIsWs = c :: t ∧ pyIsWs c = false := by
  induction l with
  | nil => exact Or.inl rfl
  | cons c rest ih =>
    by_cases hc : pyIsWs c = true
    · rw [List.dropWhile_cons_of_pos hc]
      exact ih
    · have hc' : pyIsWs c = false := Bool.not_eq_true _ ▸ Bool.of_not_eq_true hc
      rw [List.dropWhile_cons_of_neg (ws_false_not c hc')]
      exact Or.inr ⟨c, rest, rfl, hc'⟩

theorem dropWhile_append_last (xs : List Char) (c : Char) (hc : pyIsWs c = false) :
    ∃ ys, (xs ++ [c]).dropWhile pyIsWs = ys ++ [c] := by
  induction xs with
  | nil =>
    refine ⟨[], ?_⟩
    simp [List.dropWhile_cons_of_neg (ws_false_not c hc)]
  | cons x t ih =>
    by_cases hx : pyIsWs x = true
    · rw [List.cons_append, List.dropWhile_cons_of_pos hx]
      exact ih
    · have hx2 : pyIsWs x = false := Bool.not_eq_true _ ▸ Bool.of_not_eq_true hx
      rw [List.cons_append, List.dropWhile_cons_of_neg (ws_false_not x hx2)]
      exact ⟨x :: t, rfl⟩

theorem revDropRev_cons (c : Char) (t : List Char) (hc : pyIsWs c = false) :
    ∃ ys, ((c :: t).reverse.dropWhile pyIsWs).reverse = c :: ys := by
  rw [List.reverse_cons]
  obtain ⟨ys, hys⟩ := dropWhile_append_last t.reverse c hc
  rw [hys, List.reverse_append]
  exact ⟨ys.reverse, rfl⟩

theorem pyStrip_head (l : List Char) (h : pyStrip l ≠ []) :
    ∃ c t, pyStrip l = c :: t ∧ pyIsWs c = false := by
  unfold pyStrip at h ⊢
  rcases dropWhile_ws_head l with hm | ⟨c, t, hm, hc⟩
  · rw [hm] at h
    simp at h
  · rw [hm]
    obtain ⟨ys, hys⟩ := revDropRev_cons c t hc
    exact ⟨c, ys, hys, hc⟩

theorem pyStrip_cons_ne (c : Char) (t : List Char) (hc : pyIsWs c = false) :
    pyStrip (c :: t) ≠ [] := by
  unfold pyStrip
  rw [List.dropWhile_cons_of_neg (ws_false_not c hc)]
  obtain ⟨ys, hys⟩ := revDropRev_cons c t hc
  rw [hys]
  exact List.cons_ne_nil _ _

theorem mem_dropWhile_ws (l : List Char) (c : Char) (hcl : c ∈ l) (hc : pyIsWs c = false) :
    c ∈ l.dropWhile pyIsWs := by
  induction l with
  | nil => simp at hcl
  | cons x t ih =>
    by_cases hx : pyIsWs x = true
    · rw [List.dropWhile_cons_of_pos hx]
      rcases List.mem_cons.mp hcl with h | h
      · rw [h] at hc; rw [hc] at hx; cases hx
      · exact ih h
    · have hx2 : pyIsWs x = false := Bool.not_eq_true _ ▸ Bool.of_not_eq_true hx
      rw [List.dropWhile_cons_of_neg (ws_false_not x hx2)]
      exact hcl

theorem pyStrip_ne_of_mem (l : List Char) (c : Char) (hcl : c ∈ l) (hc : pyIsWs c = false) :
    pyStrip l ≠ [] := by
  have hmem : c ∈ l.dropWhile pyIsWs := mem_dropWhile_ws l c hcl hc
  rcases dropWhile_ws_head l with hm | ⟨c0, t, hm, hc0⟩
  · rw [hm] at hmem; simp at hmem
  · unfold pyStrip
    rw [hm]
    obtain ⟨ys, hys⟩ := revDropRev_cons c0 t hc0
    rw [hys]
    exact List.cons_ne_nil _ _

theorem pyStrip_nil_of_all_ws (l : List Char) (h : ∀ c ∈ l, pyIsWs c = true) :
    pyStrip l = [] := by
  unfold pyStrip
  have h1 : l.dropWhile pyIsWs = [] :=
    List.dropWhile_eq_nil_iff.mpr (by intro a ha; simp [h a ha])
  rw [h1]
  rfl

theorem exists_not_ws_of_strip_ne (l : List Char) (h : pyStrip l ≠ []) :
    ∃ c ∈ l, pyIsWs c = false := by
  by_contra hall
  push_neg at hall
  apply h
  apply pyStrip_nil_of_all_ws
  intro c hc
  have := hall c hc
  cases hws : pyIsWs c
  · exact absurd hws this
  · rfl

theorem mk_ne_empty (x : List Char) (hx : x ≠ []) : String.mk x ≠ "" := by
  intro h
  exact hx (congrArg String.data h)

theorem wsTokensAux_nil (acc : List Char) :
    wsTokensAux [] acc = if acc.isEmpty then [] else [String.mk acc.reverse] := rfl

theorem wsTokensAux_cons_ws (c : Char) (rest acc : List Char) (hc : pyIsWs c = true) :
    wsTokensAux (c :: rest) acc =
      if acc.isEmpty then wsTokensAux rest []
      else String.mk acc.reverse :: wsTokensAux rest [] := by
  simp [wsTokensAux, hc]

theorem wsTokensAux_cons_not_ws (c : Char) (rest acc : List Char) (hc : pyIsWs c = false) :
    wsTokensAux (c :: rest) acc = wsTokensAux rest (c :: acc) := by
  simp [wsTokensAux, hc]

theorem wsTokensAux_eq_nil_iff :
    ∀ (l : List Char) (acc : List Char),
      (wsTokensAux l acc = [] ↔ acc = [] ∧ ∀ c ∈ l, pyIsWs c = true) := by
  intro l
  induction l with
  | nil =>
    intro acc
    cases acc with
    | nil => simp [wsTokensAux_nil]
    | cons a t => simp [wsTokensAux_nil]
  | cons c rest ih =>
    intro acc
    by_cases hc : pyIsWs c = true
    · cases acc with
      | nil =>
        rw [wsTokensAux_cons_ws c rest [] hc]
        simp only [List.isEmpty_nil, if_true, ih []]
        simp [hc]
      | cons a t =>
        rw [wsTokensAux_cons_ws c rest (a :: t) hc]
        simp
    · have hc' : pyIsWs c = false := Bool.not_eq_true _ ▸ Bool.of_not_eq_true hc
      rw [wsTokensAux_cons_not_ws c rest acc hc', ih (c :: acc)]
      simp [hc']

theorem wsTokens_eq_nil_iff (l : List Char) :
    wsTokens l = [] ↔ ∀ c ∈ l, pyIsWs c = true := by
  unfold wsTokens
  rw [wsTokensAux_eq_nil_iff l []]
  simp

theorem wsTokensAux_tokens_ne :
    ∀ (l acc : List Char), acc ≠ [] ∨ True →
      ∀ t ∈ wsTokensAux l acc, t ≠ "" := by
  intro l
  induction l with
  | nil =>
    intro acc _ t ht
    rw [wsTokensAux_nil] at ht
    cases acc with
    | nil => simp at ht
    | cons a u =>
      simp at ht
      rw [ht]
      exact mk_ne_empty _ (by simp)
  | cons c rest ih =>
    intro acc _ t ht
    by_cases hc : pyIsWs c = true
    · rw [wsTokensAux_cons_ws c rest acc hc] at ht
      cases acc with
      | nil =>
        simp at ht
        exact ih [] (Or.inr trivial) t ht
      | cons a u =>
        simp at ht
        rcases ht with h | h
        · rw [h]
          exact mk_ne_empty _ (by simp)
        · exact ih [] (Or.inr trivial) t h
    · have hc' : pyIsWs c = false := Bool.not_eq_true _ ▸ Bool.of_not_eq_true hc
      rw [wsTokensAux_cons_not_ws c rest acc hc'] at ht
      exact ih (c :: acc) (Or.inr trivial) t ht

theorem wsTokens_tokens_ne (l : List Char) : ∀ t ∈ wsTokens l, t ≠ "" :=
  wsTokensAux_tokens_ne l [] (Or.inr trivial)

theorem wsTokensAux_all_ws :
    ∀ (w : List Char), (∀ c ∈ w, pyIsWs c = true) →
      ∀ acc : List Char,
        wsTokensAux w acc = if acc.isEmpty then [] else [String.mk acc.reverse] := by
  intro w
  induction w with
  | nil => intro _ acc; rfl
  | cons c rest ih =>
    intro hw acc
    have hc : pyIsWs c = true := hw c (List.mem_cons_self _ _)
    have hrest : ∀ x ∈ rest, pyIsWs x = true := fun x hx => hw x (List.mem_cons_of_mem _ hx)
    rw [wsTokensAux_cons_ws c rest acc hc]
    cases acc with
    | nil => simp [ih hrest []]
    | cons a t => simp [ih hrest []]

theorem wsTokensAux_append_ws :
    ∀ (l w : List Char), (∀ c ∈ w, pyIsWs c = true) →
      ∀ acc : List Char, wsTokensAux (l ++ w) acc = wsTokensAux l acc := by
  intro l
  induction l with
  | nil =>
    intro w hw acc
    rw [List.nil_append, wsTokensAux_all_ws w hw acc, wsTokensAux_nil]
  | cons c rest ih =>
    intro w hw acc
    by_cases hc : pyIsWs c = true
    · rw [List.cons_append, wsTokensAux_cons_ws c _ acc hc, wsTokensAux_cons_ws c rest acc hc,
        ih w hw []]
    · have hc' : pyIsWs c = false := Bool.not_eq_true _ ▸ Bool.of_not_eq_true hc
      rw [List.cons_append, wsTokensAux_cons_not_ws c _ acc hc',
        wsTokensAux_cons_not_ws c rest acc hc', ih w hw (c :: acc)]

theorem wsTokensAux_dropWhile (l : List Char) :
    wsTokensAux (l.dropWhile pyIsWs) [] = wsTokensAux l [] := by
  induction l with
  | nil => rfl
  | cons c rest ih =>
    by_cases hc : pyIsWs c = true
    · rw [List.dropWhile_cons_of_pos hc, ih, wsTokensAux_cons_ws c rest [] hc]
      simp
    · have hc' : pyIsWs c = false := Bool.not_eq_true _ ▸ Bool.of_not_eq_true hc
      rw [List.dropWhile_cons_of_neg (ws_false_not c hc')]

theorem mem_takeWhile_ws (l : List Char) :
    ∀ c ∈ l.takeWhile pyIsWs, pyIsWs c = true := by
  induction l with
  | nil => intro c hc; simp at hc
  | cons x t ih =>
    intro c hc
    by_cases hx : pyIsWs x = true
    · rw [List.takeWhile_cons_of_pos hx] at hc
      rcases List.mem_cons.mp hc with h | h
      · rw [h]; exact hx
      · exact ih c h
    · rw [List.takeWhile_cons_of_neg hx] at hc
      simp at hc

theorem wsTokens_strip (l : List Char) : wsTokens (pyStrip l) = wsTokens l := by
  unfold wsTokens
  have hdecomp : l.dropWhile pyIsWs = pyStrip l ++ ((l.dropWhile pyIsWs).reverse.takeWhile pyIsWs).reverse := by
    unfold pyStrip
    conv_lhs => rw [← List.reverse_reverse (l.dropWhile pyIsWs)]
    conv_lhs => rw [← List.takeWhile_append_dropWhile (p := pyIsWs) (l := (l.dropWhile pyIsWs).reverse)]
    rw [List.reverse_append]
  have hws : ∀ c ∈ ((l.dropWhile pyIsWs).reverse.takeWhile pyIsWs).reverse, pyIsWs c = true := by
    intro c hc
    exact mem_takeWhile_ws _ c (List.mem_reverse.mp hc)
  calc wsTokensAux (pyStrip l) []
      = wsTokensAux (pyStrip l ++ ((l.dropWhile pyIsWs).reverse.takeWhile pyIsWs).reverse) [] :=
        (wsTokensAux_append_ws (pyStrip l) _ hws []).symm
    _ = wsTokensAux (l.dropWhile pyIsWs) [] := by rw [← hdecomp]
    _ = wsTokensAux l [] := wsTokensAux_dropWhile l

/-! ### C8: name-candidate token distribution -/

theorem splitWs_eq_tokens (name : String) (h : wsTokens name.data ≠ []) :
    splitWsStripped name = wsTokens name.data := by
  unfold splitWsStripped
  have hstrip : ¬ pyStrip name.data = [] := by
    intro hc
    apply h
    rw [← wsTokens_strip name.data]
    rw [hc]
    rfl
  rw [if_neg hstrip, wsTokens_strip]

/-- C8: for every non-empty name candidate, splitting on whitespace gives:
one token, only `first`; two tokens, `first` and `last` with `middle` None;
three or more, `first` the first token, `last` the last token and `middle`
the space-join of the tokens in between. -/
theorem name_candidate_token_cases (name : String) (h : name ≠ "") :
    (∀ a, wsTokens name.data = [a] →
      parseNameCandidate name = ⟨some a, none, none⟩) ∧
    (∀ a b, wsTokens name.data = [a, b] →
      parseNameCandidate name = ⟨some a, none, some b⟩) ∧
    (∀ a mid b, mid ≠ [] → wsTokens name.data = a :: mid ++ [b] →
      parseNameCandidate name = ⟨some a, some (String.intercalate " " mid), some b⟩) := by
  have hne : ¬ (name == "") = true := by simp [h]
  have hpc : parseNameCandidate name =
      (match splitWsStripped name with
       | [] => ⟨none, none, none⟩
       | [p] => ⟨some p, none, none⟩
       | [p, q] => ⟨some p, none, some q⟩
       | p :: q :: r :: rest =>
         ⟨some p, some (String.intercalate " " (q :: r :: rest).dropLast),
           some ((q :: r :: rest).getLastD "")⟩) := by
    unfold parseNameCandidate
    rw [if_neg hne]
  refine ⟨?_, ?_, ?_⟩
  · intro a htok
    rw [hpc, splitWs_eq_tokens name (by rw [htok]; exact List.cons_ne_nil _ _), htok]
  · intro a b htok
    rw [hpc, splitWs_eq_tokens name (by rw [htok]; exact List.cons_ne_nil _ _), htok]
  · intro a mid b hmid htok
    obtain ⟨m, mid2, hm⟩ := List.exists_cons_of_ne_nil hmid
    obtain ⟨r0, rest0, hr⟩ : ∃ r0 rest0, mid2 ++ [b] = r0 :: rest0 := by
      cases mid2 with
      | nil => exact ⟨b, [], rfl⟩
      | cons x xs => exact ⟨x, xs ++ [b], rfl⟩
    have htok2 : wsTokens name.data = a :: m :: r0 :: rest0 := by
      rw [htok, hm, ← hr]
      rfl
    rw [hpc, splitWs_eq_tokens name (by rw [htok2]; exact List.cons_ne_nil _ _), htok2]
    have hlist : m :: r0 :: rest0 = mid ++ [b] := by
      rw [hm, ← hr]
      rfl
    show NameParts.mk (some a)
        (some (String.intercalate " " (m :: r0 :: rest0).dropLast))
        (some ((m :: r0 :: rest0).getLastD "")) =
      NameParts.mk (some a) (some (String.intercalate " " mid)) (some b)
    rw [hlist, List.dropLast_concat, List.getLastD_concat]

/-- C8 witness on a three-token candidate. -/
theorem name_candidate_token_cases_witness :
    ("Ada B Lovelace" : String) ≠ "" ∧
    parseNameCandidate "Ada B Lovelace" =
      ⟨some "Ada", some (String.intercalate " " ["B"]), some "Lovelace"⟩ :=
  ⟨by decide,
    (name_candidate_token_cases "Ada B Lovelace" (by decide)).2.2 "Ada" ["B"] "Lovelace"
      (by decide) (by decide)⟩

/-! ### C7: shape of extracted money values -/

theorem mem_takeWhile_pred (p : Char → Bool) (l : List Char) :
    ∀ c ∈ l.takeWhile p, p c = true := by
  induction l with
  | nil => intro c hc; simp at hc
  | cons x t ih =>
    intro c hc
    by_cases hx : p x = true
    · rw [List.takeWhile_cons_of_pos hx] at hc
      rcases List.mem_cons.mp hc with h | h
      · rw [h]; exact hx
      · exact ih c h
    · rw [List.takeWhile_cons_of_neg hx] at hc
      simp at hc

theorem ws_char_cases (c : Char) (h : pyIsWs c = true) :
    c = ' ' ∨ c = '\t' ∨ c = '\n' ∨ c = '\r' ∨ c = '\x0b' ∨ c = '\x0c' := by
  unfold pyIsWs at h
  simp only [Bool.or_eq_true, beq_iff_eq] at h
  tauto

theorem digitComma_not_ws (c : Char) (h : digitComma c = true) : pyIsWs c = false := by
  cases hws : pyIsWs c
  · rfl
  · exfalso
    rcases ws_char_cases c hws with h1 | h1 | h1 | h1 | h1 | h1 <;>
      rw [h1] at h <;> exact absurd h (by decide)

theorem isDigit_not_ws (c : Char) (h : c.isDigit = true) : pyIsWs c = false :=
  digitComma_not_ws c (by simp [digitComma, h])

theorem dot_not_ws : pyIsWs '.' = false := by decide

theorem dropWhile_ws_eq_self (l : List Char) (h : ∀ c ∈ l, pyIsWs c = false) :
    l.dropWhile pyIsWs = l := by
  cases l with
  | nil => rfl
  | cons c t => exact List.dropWhile_cons_of_neg (ws_false_not c (h c (List.mem_cons_self _ _)))

theorem pyStrip_no_ws (l : List Char) (h : ∀ c ∈ l, pyIsWs c = false) : pyStrip l = l := by
  unfold pyStrip
  rw [dropWhile_ws_eq_self l h,
    dropWhile_ws_eq_self l.reverse (by intro c hc; exact h c (List.mem_reverse.mp hc)),
    List.reverse_reverse]

/-- The shape every raw money group has: a non-empty digits/commas run,
optionally ended by one decimal point with exactly two digits. -/
def MoneyShape (g : List Char) : Prop :=
  ∃ w d1 d2, (∀ c ∈ w, digitComma c = true) ∧ w ≠ [] ∧
    (g = w ∨ (g = w ++ ['.', d1, d2] ∧ d1.isDigit = true ∧ d2.isDigit = true))

theorem moneyGroup_shape (s g : List Char) (h : moneyGroup s = some g) : MoneyShape g := by
  simp only [moneyGroup] at h
  have hmemw := mem_takeWhile_pred digitComma s
  split at h
  · cases h
  · rename_i hw
    have hwne : s.takeWhile digitComma ≠ [] := by
      intro hc
      rw [hc] at hw
      exact hw rfl
    split at h
    · rename_i d1 d2 rest heq
      split at h
      · rename_i hd
        rw [Option.some_inj] at h
        refine ⟨s.takeWhile digitComma, d1, d2, hmemw, hwne, Or.inr ⟨h.symm, ?_, ?_⟩⟩
        · exact (Bool.and_eq_true _ _ |>.mp hd).1
        · exact (Bool.and_eq_true _ _ |>.mp hd).2
      · rw [Option.some_inj] at h
        exact ⟨s.takeWhile digitComma, '0', '0', hmemw, hwne, Or.inl h.symm⟩
    · rw [Option.some_inj] at h
      exact ⟨s.takeWhile digitComma, '0', '0', hmemw, hwne, Or.inl h.symm⟩

theorem scanOpt_preserve (step : List Char → Option (List Char)) (P : List Char → Prop)
    (hstep : ∀ s g, step s = some g → P g) :
    ∀ l g, scanOpt step l = some g → P g := by
  intro l
  induction l with
  | nil => intro g h; exact hstep [] g h
  | cons c rest ih =>
    intro g h
    rw [show scanOpt step (c :: rest) =
          (match step (c :: rest) with
           | some g => some g
           | none => scanOpt step rest) from rfl] at h
    cases hs : step (c :: rest) with
    | some g2 => rw [hs] at h; rw [Option.some_inj] at h; rw [← h]; exact hstep _ g2 hs
    | none => rw [hs] at h; exact ih g h

theorem stepMoney_shape (label : List Char) (s g : List Char)
    (h : stepMoney label s = some g) : MoneyShape g := by
  simp only [stepMoney] at h
  split at h
  · cases h
  · exact moneyGroup_shape _ g h

theorem moneyShape_not_ws (g : List Char) (hs : MoneyShape g) :
    ∀ c ∈ g, pyIsWs c = false := by
  obtain ⟨w, d1, d2, hw, _, hcase⟩ := hs
  intro c hc
  rcases hcase with h | ⟨h, hd1, hd2⟩
  · rw [h] at hc
    exact digitComma_not_ws c (hw c hc)
  · rw [h] at hc
    rcases List.mem_append.mp hc with h2 | h2
    · exact digitComma_not_ws c (hw c h2)
    · rcases List.mem_cons.mp h2 with h3 | h3
      · rw [h3]; exact dot_not_ws
      · rcases List.mem_cons.mp h3 with h4 | h4
        · rw [h4]; exact isDigit_not_ws d1 hd1
        · rcases List.mem_cons.mp h4 with h5 | h5
          · rw [h5]; exact isDigit_not_ws d2 hd2
          · simp at h5

/-- C7: whenever `_extract_money` returns a value, that value is a non-empty
run of digits and commas, optionally followed by exactly one decimal point
and exactly two digits; in particular it never contains a currency sign or
any other character. -/
theorem money_value_shape (label text v : String) (h : extractMoney label text = some v) :
    MoneyShape v.data := by
  unfold extractMoney stripGroup at h
  cases hscan : scanOpt (stepMoney label.data) text.data with
  | none => rw [hscan] at h; cases h
  | some g =>
    rw [hscan] at h
    simp only [Option.map_some'] at h
    rw [Option.some_inj] at h
    have hshape : MoneyShape g :=
      scanOpt_preserve (stepMoney label.data) MoneyShape
        (fun s g2 hg => stepMoney_shape label.data s g2 hg) text.data g hscan
    have hnows := moneyShape_not_ws g hshape
    have : v.data = g := by
      rw [← h]
      exact pyStrip_no_ws g hnows
    rw [this]
    exact hshape

/-- C7 witness: a concrete extraction, with a currency sign stripped. -/
theorem money_value_shape_witness :
    extractMoney "Wages" "Wages $1,234.56" = some "1,234.56" ∧
    MoneyShape ("1,234.56" : String).data :=
  ⟨by decide, money_value_shape "Wages" "Wages $1,234.56" "1,234.56" (by decide)⟩

/-! ### C3: every output record has a truthy (hence non-null) field -/

theorem mem_dedupAux : ∀ (l : List Emp) (seen : List String) (x : Emp),
    x ∈ dedupAux l seen → x ∈ l := by
  intro l
  induction l with
  | nil => intro seen x hx; cases hx
  | cons e rest ih =>
    intro seen x hx
    have hunf : dedupAux (e :: rest) seen =
        if seen.contains (identityKey e) = true then dedupAux rest seen
        else e :: dedupAux rest (identityKey e :: seen) := rfl
    rw [hunf] at hx
    by_cases hc : seen.contains (identityKey e) = true
    · rw [if_pos hc] at hx
      exact List.mem_cons_of_mem _ (ih seen x hx)
    · rw [if_neg hc] at hx
      rcases List.mem_cons.mp hx with h | h
      · rw [h]; exact List.mem_cons_self _ _
      · exact List.mem_cons_of_mem _ (ih _ x h)

theorem emitRecords_truthy : ∀ (l : List String) (x : Emp),
    x ∈ emitRecords l → anyTruthy x = true := by
  intro l
  induction l with
  | nil => intro x hx; cases hx
  | cons p rest ih =>
    intro x hx
    have hunf : emitRecords (p :: rest) =
        if anyTruthy (extractEmployeeFromPage p) = true then
          extractEmployeeFromPage p :: emitRecords rest
        else emitRecords rest := rfl
    rw [hunf] at hx
    by_cases hc : anyTruthy (extractEmployeeFromPage p) = true
    · rw [if_pos hc] at hx
      rcases List.mem_cons.mp hx with h | h
      · rw [h]; exact hc
      · exact ih x h
    · rw [if_neg hc] at hx
      exact ih x hx

theorem buildEmployees_truthy : ∀ (target w2 : List String) (x : Emp),
    x ∈ buildEmployees w2 target → anyTruthy x = true := by
  intro target
  induction target with
  | nil => intro w2 x hx; cases hx
  | cons p rest ih =>
    intro w2 x hx
    have hunf : buildEmployees w2 (p :: rest) =
        if (pyStrip p.data).isEmpty = true then buildEmployees w2 rest
        else if w2.contains p = true then
          (if anyTruthy (extractEmployeeFromPage p) = true then
            extractEmployeeFromPage p :: buildEmployees w2 rest
          else buildEmployees w2 rest)
        else emitRecords (splitEmployeeSections p) ++ buildEmployees w2 rest := rfl
    rw [hunf] at hx
    by_cases h1 : (pyStrip p.data).isEmpty = true
    · rw [if_pos h1] at hx
      exact ih w2 x hx
    · rw [if_neg h1] at hx
      by_cases h2 : w2.contains p = true
      · rw [if_pos h2] at hx
        by_cases h3 : anyTruthy (extractEmployeeFromPage p) = true
        · rw [if_pos h3] at hx
          rcases List.mem_cons.mp hx with h | h
          · rw [h]; exact h3
          · exact ih w2 x h
        · rw [if_neg h3] at hx
          exact ih w2 x hx
      · rw [if_neg h2] at hx
        rcases List.mem_append.mp hx with h | h
        · exact emitRecords_truthy _ x h
        · exact ih w2 x h

theorem truthyO_ne_none (o : Option String) (h : truthyO o = true) : o ≠ none := by
  cases o with
  | none => cases h
  | some s => exact Option.some_ne_none s

/-- C3: every record in the pipeline output satisfies the
`any(employee.values())` guard (some field is a non-empty string), so in
particular at least one of its fields is non-null; an all-empty/None record
is discarded before deduplication and never appears. -/
theorem output_has_nonnull_field (pages : List String) (e : Emp)
    (h : e ∈ extractEmployeesFromPages pages) :
    anyTruthy e = true ∧
    (e.ssn ≠ none ∨ e.first ≠ none ∨ e.middle ≠ none ∨ e.last ≠ none ∨
     e.wages ≠ none ∨ e.state_wages ≠ none ∨ e.state_withheld ≠ none ∨
     e.mapfml ≠ none) := by
  have hunf : extractEmployeesFromPages pages =
      dedup (buildEmployees (pages.filter isW2Page)
        (if (pages.filter isW2Page).isEmpty = true then pages
         else pages.filter isW2Page)) := rfl
  rw [hunf] at h
  have hb := mem_dedupAux _ _ e h
  have ht := buildEmployees_truthy _ _ e hb
  refine ⟨ht, ?_⟩
  unfold anyTruthy at ht
  simp only [Bool.or_eq_true] at ht
  rcases ht with ((((((h1 | h1) | h1) | h1) | h1) | h1) | h1) | h1
  · exact Or.inl (truthyO_ne_none _ h1)
  · exact Or.inr (Or.inl (truthyO_ne_none _ h1))
  · exact Or.inr (Or.inr (Or.inl (truthyO_ne_none _ h1)))
  · exact Or.inr (Or.inr (Or.inr (Or.inl (truthyO_ne_none _ h1))))
  · exact Or.inr (Or.inr (Or.inr (Or.inr (Or.inl (truthyO_ne_none _ h1)))))
  · exact Or.inr (Or.inr (Or.inr (Or.inr (Or.inr (Or.inl (truthyO_ne_none _ h1))))))
  · exact Or.inr (Or.inr (Or.inr (Or.inr (Or.inr (Or.inr (Or.inl (truthyO_ne_none _ h1)))))))
  · exact Or.inr (Or.inr (Or.inr (Or.inr (Or.inr (Or.inr (Or.inr (truthyO_ne_none _ h1)))))))

/-- C3 witness: the record extracted from a concrete W-2 page. -/
theorem output_has_nonnull_field_witness :
    anyTruthy (Emp.mk none (some "W-2") (some "Employee") (some "x")
      none none none none) = true ∧
    ((Emp.mk none (some "W-2") (some "Employee") (some "x")
        none none none none).ssn ≠ none ∨
     (Emp.mk none (some "W-2") (some "Employee") (some "x")
        none none none none).first ≠ none ∨
     (Emp.mk none (some "W-2") (some "Employee") (some "x")
        none none none none).middle ≠ none ∨
     (Emp.mk none (some "W-2") (some "Employee") (some "x")
        none none none none).last ≠ none ∨
     (Emp.mk none (some "W-2") (some "Employee") (some "x")
        none none none none).wages ≠ none ∨
     (Emp.mk none (some "W-2") (some "Employee") (some "x")
        none none none none).state_wages ≠ none ∨
     (Emp.mk none (some "W-2") (some "Employee") (some "x")
        none none none none).state_withheld ≠ none ∨
     (Emp.mk none (some "W-2") (some "Employee") (some "x")
        none none none none).mapfml ≠ none) :=
  output_has_nonnull_field ["W-2 Employee x"]
    (Emp.mk none (some "W-2") (some "Employee") (some "x") none none none none)
    (by decide)

/-! ### C9: qualifying pages are processed whole, others excluded -/

theorem mem_of_strContainsAux (pat : List Char) :
    ∀ (l : List Char), strContainsAux pat l = true → ∀ c ∈ pat, c ∈ l := by
  intro l
  induction l with
  | nil =>
    intro h c hc
    have : pat = [] := by
      cases pat with
      | nil => rfl
      | cons x t => cases h
    rw [this] at hc
    cases hc
  | cons x rest ih =>
    intro h c hc
    have hunf : strContainsAux pat (x :: rest) =
        (pat.isPrefixOf (x :: rest) || strContainsAux pat rest) := rfl
    rw [hunf, Bool.or_eq_true] at h
    rcases h with h | h
    · have hpre : pat <+: x :: rest := List.isPrefixOf_iff_prefix.mp h
      exact hpre.subset hc
    · exact List.mem_cons_of_mem _ (ih h c hc)

theorem contains_of_mem_str (l : List String) (p : String) (h : p ∈ l) :
    l.contains p = true := by
  induction l with
  | nil => cases h
  | cons x t ih =>
    rw [List.contains_cons, Bool.or_eq_true]
    rcases List.mem_cons.mp h with h1 | h1
    · exact Or.inl (by simp [h1])
    · exact Or.inr (ih h1)

theorem w2_page_strip_ne (p : String) (h : isW2Page p = true) :
    (pyStrip p.data).isEmpty = false := by
  unfold isW2Page at h
  have h1 : strContains p "W-2" = true := (Bool.and_eq_true _ _ |>.mp h).1
  unfold strContains at h1
  have hW : 'W' ∈ p.data :=
    mem_of_strContainsAux ("W-2".data) p.data h1 'W' (by decide)
  have hne : pyStrip p.data ≠ [] := pyStrip_ne_of_mem p.data 'W' hW (by decide)
  cases hs : pyStrip p.data with
  | nil => exact absurd hs hne
  | cons a t => rfl

theorem buildEmployees_eq_emit : ∀ (l w2 : List String),
    (∀ p ∈ l, w2.contains p = true ∧ (pyStrip p.data).isEmpty = false) →
    buildEmployees w2 l = emitRecords l := by
  intro l
  induction l with
  | nil => intro w2 _; rfl
  | cons p rest ih =>
    intro w2 hcond
    obtain ⟨hcont, hstrip⟩ := hcond p (List.mem_cons_self _ _)
    have hrest : ∀ q ∈ rest, w2.contains q = true ∧ (pyStrip q.data).isEmpty = false :=
      fun q hq => hcond q (List.mem_cons_of_mem _ hq)
    have hunf : buildEmployees w2 (p :: rest) =
        if (pyStrip p.data).isEmpty = true then buildEmployees w2 rest
        else if w2.contains p = true then
          (if anyTruthy (extractEmployeeFromPage p) = true then
            extractEmployeeFromPage p :: buildEmployees w2 rest
          else buildEmployees w2 rest)
        else emitRecords (splitEmployeeSections p) ++ buildEmployees w2 rest := rfl
    have hunf2 : emitRecords (p :: rest) =
        if anyTruthy (extractEmployeeFromPage p) = true then
          extractEmployeeFromPage p :: emitRecords rest
        else emitRecords rest := rfl
    rw [hunf, hunf2, if_neg (by rw [hstrip]; exact Bool.false_ne_true), if_pos hcont]
    by_cases h3 : anyTruthy (extractEmployeeFromPage p) = true
    · rw [if_pos h3, if_pos h3, ih w2 hrest]
    · rw [if_neg h3, if_neg h3, ih w2 hrest]

/-- C9: whenever at least one page contains both `"W-2"` and `"Employee"`
(case-sensitively), the pipeline equals the whole-page extraction over
exactly the qualifying pages: non-qualifying pages contribute nothing and
`splitEmployeeSections` is never applied. -/
theorem w2_pages_whole_page_units (pages : List String)
    (h : ∃ p ∈ pages, isW2Page p = true) :
    extractEmployeesFromPages pages = dedup (emitRecords (pages.filter isW2Page)) := by
  have hempty : (pages.filter isW2Page).isEmpty = false := by
    obtain ⟨p, hp, hq⟩ := h
    have hmem : p ∈ pages.filter isW2Page := List.mem_filter.mpr ⟨hp, hq⟩
    cases hn : pages.filter isW2Page with
    | nil => rw [hn] at hmem; cases hmem
    | cons a t => rfl
  have hunf : extractEmployeesFromPages pages =
      dedup (buildEmployees (pages.filter isW2Page)
        (if (pages.filter isW2Page).isEmpty = true then pages
         else pages.filter isW2Page)) := rfl
  rw [hunf, if_neg (by rw [hempty]; exact Bool.false_ne_true)]
  congr 1
  apply buildEmployees_eq_emit
  intro p hp
  refine ⟨contains_of_mem_str _ p hp, ?_⟩
  exact w2_page_strip_ne p (List.mem_filter.mp hp).2

/-- C9 witness: one qualifying and one plain page. -/
theorem w2_pages_whole_page_units_witness :
    (∃ p ∈ ["W-2 Employee x", "plain page"], isW2Page p = true) ∧
    extractEmployeesFromPages ["W-2 Employee x", "plain page"] =
      dedup (emitRecords ((["W-2 Employee x", "plain page"]).filter isW2Page)) :=
  ⟨by decide, w2_pages_whole_page_units ["W-2 Employee x", "plain page"] (by decide)⟩

/-! ### C10: non-whitespace text always yields a truthy first name -/

theorem stripGroup_eq_some (o : Option (List Char)) (v : String)
    (h : stripGroup o = some v) : ∃ g, v.data = pyStrip g := by
  cases o with
  | none => cases h
  | some g =>
    refine ⟨g, ?_⟩
    simp only [stripGroup, Option.map_some'] at h
    rw [Option.some_inj] at h
    rw [← h]

theorem strip_image_head (v : String) (g : List Char) (hv : v.data = pyStrip g)
    (hne : v ≠ "") : ∃ c t, v.data = c :: t ∧ pyIsWs c = false := by
  have hd : pyStrip g ≠ [] := by
    intro hc
    apply hne
    apply String.ext
    rw [hv, hc]
  obtain ⟨c, t, h1, h2⟩ := pyStrip_head g hd
  exact ⟨c, t, by rw [hv, h1], h2⟩

theorem subZeroSuffix_cons (c : Char) (t : List Char) (hc : pyIsWs c = false) :
    subZeroSuffix (c :: t) = c :: subZeroSuffix t := by
  simp [subZeroSuffix, hc]

theorem parseNameCandidate_first (name : String) (hne : name ≠ "")
    (hhead : ∃ c t, name.data = c :: t ∧ pyIsWs c = false) :
    ∃ s, (parseNameCandidate name).first = some s ∧ s ≠ "" := by
  obtain ⟨c, t, hdata, hc⟩ := hhead
  have htok_ne : wsTokens name.data ≠ [] := by
    intro hcontra
    have hall := (wsTokens_eq_nil_iff name.data).mp hcontra
    have hcc := hall c (by rw [hdata]; exact List.mem_cons_self _ _)
    rw [hc] at hcc
    cases hcc
  have hsplit := splitWs_eq_tokens name htok_ne
  have hne2 : ¬ (name == "") = true := by simp [hne]
  have hpc : parseNameCandidate name =
      (match splitWsStripped name with
       | [] => ⟨none, none, none⟩
       | [p] => ⟨some p, none, none⟩
       | [p, q] => ⟨some p, none, some q⟩
       | p :: q :: r :: rest =>
         ⟨some p, some (String.intercalate " " (q :: r :: rest).dropLast),
           some ((q :: r :: rest).getLastD "")⟩) := by
    unfold parseNameCandidate
    rw [if_neg hne2]
  rw [hpc, hsplit]
  cases htoks : wsTokens name.data with
  | nil => exact absurd htoks htok_ne
  | cons p rest =>
    have hp_ne : p ≠ "" :=
      wsTokens_tokens_ne name.data p (by rw [htoks]; exact List.mem_cons_self _ _)
    cases rest with
    | nil => exact ⟨p, rfl, hp_ne⟩
    | cons q rest2 =>
      cases rest2 with
      | nil => exact ⟨p, rfl, hp_ne⟩
      | cons r rest3 => exact ⟨p, rfl, hp_ne⟩

theorem extractName_first (text : String) (hstrip : pyStrip text.data ≠ []) :
    ∃ s, (extractName text).first = some s ∧ s ≠ "" := by
  have hstripped : ∃ s, (parseNameCandidate (stripStr text)).first = some s ∧ s ≠ "" := by
    apply parseNameCandidate_first
    · exact mk_ne_empty _ hstrip
    · obtain ⟨c, t, h1, h2⟩ := pyStrip_head text.data hstrip
      exact ⟨c, t, h1, h2⟩
  have hunf : extractName text =
      parseNameCandidate
        (match fmEmpNameLabel text with
         | some g => if g == "" then stripStr text else g
         | none => stripStr text) := rfl
  rw [hunf]
  cases hfm : fmEmpNameLabel text with
  | none => exact hstripped
  | some g =>
    show ∃ s, (parseNameCandidate
        (if (g == "") = true then stripStr text else g)).first = some s ∧ s ≠ ""
    by_cases hg : (g == "") = true
    · rw [if_pos hg]
      exact hstripped
    · rw [if_neg hg]
      have hgne : g ≠ "" := fun hcg => hg (by simp [hcg])
      have hfm2 : stripGroup (scanOpt stepEmpNameLabel text.data) = some g := hfm
      obtain ⟨raw, hraw⟩ := stripGroup_eq_some _ g hfm2
      exact parseNameCandidate_first g hgne (strip_image_head g raw hraw hgne)

/-- C10: on any text with a non-whitespace character the per-section
extractor returns a record whose `first` field is a non-empty string (the
name fallback parses the whole text as a candidate), so the
`any(employee.values())` filter never discards such a record. -/
theorem nonws_text_first_nonnull (text : String)
    (h : ∃ c ∈ text.data, pyIsWs c = false) :
    ∃ s, (extractEmployeeFromPage text).first = some s ∧ s ≠ "" ∧
      anyTruthy (extractEmployeeFromPage text) = true := by
  have hstrip : pyStrip text.data ≠ [] := by
    obtain ⟨c, hc, hw⟩ := h
    exact pyStrip_ne_of_mem _ c hc hw
  have hname : ∃ s, (extractEmployeeFromPage text).first = some s ∧ s ≠ "" := by
    have hunf : (extractEmployeeFromPage text).first =
        (match fmFirstNameLine text with
         | some nl =>
           if nl == "" then extractName text
           else extractName (String.mk (pyStrip (subZeroSuffix nl.data)))
         | none => extractName text).first := rfl
    rw [hunf]
    cases hfm : fmFirstNameLine text with
    | none => exact extractName_first text hstrip
    | some nl =>
      show ∃ s, ((if (nl == "") = true then extractName text
          else extractName (String.mk (pyStrip (subZeroSuffix nl.data)))) : NameParts).first
            = some s ∧ s ≠ ""
      by_cases hnl : (nl == "") = true
      · rw [if_pos hnl]
        exact extractName_first text hstrip
      · rw [if_neg hnl]
        have hnl_ne : nl ≠ "" := fun hcg => hnl (by simp [hcg])
        have hfm2 : stripGroup (scanOpt stepFirstNameLine text.data) = some nl := hfm
        obtain ⟨raw, hraw⟩ := stripGroup_eq_some _ nl hfm2
        obtain ⟨c, t, hdata, hcws⟩ := strip_image_head nl raw hraw hnl_ne
        have hsub : subZeroSuffix nl.data = c :: subZeroSuffix t := by
          rw [hdata]
          exact subZeroSuffix_cons c t hcws
        have hX : pyStrip (subZeroSuffix nl.data) ≠ [] := by
          rw [hsub]
          exact pyStrip_cons_ne c _ hcws
        obtain ⟨c2, t2, hX2, hc2⟩ := pyStrip_head (subZeroSuffix nl.data) hX
        apply extractName_first
        show pyStrip (pyStrip (subZeroSuffix nl.data)) ≠ []
        rw [hX2]
        exact pyStrip_cons_ne c2 t2 hc2
  obtain ⟨s, hs, hsne⟩ := hname
  refine ⟨s, hs, hsne, ?_⟩
  unfold anyTruthy
  have hf : truthyO (extractEmployeeFromPage text).first = true := by
    rw [hs]
    unfold truthyO
    simp [hsne]
  simp [hf]

/-- C10 witness on a one-word page. -/
theorem nonws_text_first_nonnull_witness :
    (∃ c ∈ ("Bob" : String).data, pyIsWs c = false) ∧
    (∃ s, (extractEmployeeFromPage "Bob").first = some s ∧ s ≠ "" ∧
      anyTruthy (extractEmployeeFromPage "Bob") = true) :=
  ⟨by decide, nonws_text_first_nonnull "Bob" (by decide)⟩

/-! ### C2: the endpoint failure mode -/

/-- C2 (divergence witness): with a backend that raises on the document bytes
(a malformed PDF with pdfplumber importable), neither backend yields a page
with non-whitespace content, yet the endpoint does not return the 422
NoTextExtracted response: the exception propagates uncaught (the source's
`try` only guards the import), so no response of the handler is produced at
all. -/
theorem malformed_document_exception_uncaught :
    backendYields BackRes.raised = false ∧
    backendYields BackRes.unavailable = false ∧
    extractEndpointE BackRes.raised BackRes.unavailable = Except.error () ∧
    ∀ r : ExtractResponse,
      extractEndpointE BackRes.raised BackRes.unavailable ≠ Except.ok r := by
  refine ⟨rfl, rfl, rfl, ?_⟩
  intro r h
  exact Except.noConfusion h

theorem backendResult_cases (r : BackRes) (h : r ≠ BackRes.raised) :
    (backendYields r = true ∧ ∃ parts, backendResult r = .ok (some parts) ∧ parts ≠ []) ∨
    (backendYields r = false ∧ backendResult r = .ok none) := by
  cases r with
  | unavailable => exact Or.inr ⟨rfl, rfl⟩
  | raised => exact absurd rfl h
  | pages parts =>
    by_cases hany : parts.any (fun p => !(stripStr p == "")) = true
    · left
      refine ⟨hany, parts, ?_, ?_⟩
      · show Except.ok (if parts.any (fun p => !(stripStr p == "")) then some parts else none)
            = Except.ok (some parts)
        rw [if_pos hany]
      · intro hc
        rw [hc] at hany
        cases hany
    · right
      have hany' : parts.any (fun p => !(stripStr p == "")) = false :=
        Bool.not_eq_true _ ▸ Bool.of_not_eq_true hany
      refine ⟨hany', ?_⟩
      show Except.ok (if parts.any (fun p => !(stripStr p == "")) then some parts else none)
          = Except.ok none
      rw [if_neg hany]

/-- Supporting dispatch fact: when neither backend raises, the endpoint
returns the 422 NoTextExtracted response exactly when neither backend yields
a page with non-whitespace content, and otherwise a success result carrying a
method, fields and the fixed best-effort warning. -/
theorem endpoint_dispatch_no_raise (a b : BackRes)
    (ha : a ≠ BackRes.raised) (hb : b ≠ BackRes.raised) :
    (extractEndpointE a b = Except.ok (.failure 422 noTextMsg) ↔
      backendYields a = false ∧ backendYields b = false) ∧
    (backendYields a = true ∨ backendYields b = true →
      ∃ m f, extractEndpointE a b = Except.ok (.success m f [bestEffortWarning])) := by
  rcases backendResult_cases a ha with ⟨hya, parts, hra, hne⟩ | ⟨hya, hra⟩
  · have hfalsy : pyFalsy (some parts) = false := by
      cases hp : parts with
      | nil => rw [hp] at hne; exact absurd rfl hne
      | cons x t => rfl
    have hval : extractEndpointE a b =
        Except.ok (.success "pdfplumber"
          { employer := extractEmployerInfo (String.intercalate "\n" parts)
            employees := extractEmployeesFromPages parts } [bestEffortWarning]) := by
      unfold extractEndpointE
      rw [hra]
      show (match (if pyFalsy (some parts) = true then
               match backendResult b with
               | Except.error e => Except.error e
               | Except.ok p2 => Except.ok (p2, "pymupdf")
             else Except.ok (some parts, "pdfplumber")) with
        | Except.error e => Except.error e
        | Except.ok (pages, method) =>
          if pyFalsy pages = true then Except.ok (ExtractResponse.failure 422 noTextMsg)
          else Except.ok (ExtractResponse.success method
            { employer := extractEmployerInfo (String.intercalate "\n" (pages.getD []))
              employees := extractEmployeesFromPages (pages.getD []) }
            [bestEffortWarning])) = _
      rw [if_neg (by rw [hfalsy]; exact Bool.false_ne_true)]
      show (if pyFalsy (some parts) = true then Except.ok (ExtractResponse.failure 422 noTextMsg)
          else Except.ok (ExtractResponse.success "pdfplumber"
            { employer := extractEmployerInfo (String.intercalate "\n" ((some parts).getD []))
              employees := extractEmployeesFromPages ((some parts).getD []) }
            [bestEffortWarning])) = _
      rw [if_neg (by rw [hfalsy]; exact Bool.false_ne_true)]
      rfl
    constructor
    · rw [hval]
      constructor
      · intro hc
        exact absurd (Except.ok.inj hc) (by intro hc2; cases hc2)
      · intro ⟨h1, _⟩
        rw [hya] at h1
        cases h1
    · intro _
      exact ⟨_, _, hval⟩
  · rcases backendResult_cases b hb with ⟨hyb, parts, hrb, hne⟩ | ⟨hyb, hrb⟩
    · have hfalsy : pyFalsy (some parts) = false := by
        cases hp : parts with
        | nil => rw [hp] at hne; exact absurd rfl hne
        | cons x t => rfl
      have hval : extractEndpointE a b =
          Except.ok (.success "pymupdf"
            { employer := extractEmployerInfo (String.intercalate "\n" parts)
              employees := extractEmployeesFromPages parts } [bestEffortWarning]) := by
        unfold extractEndpointE
        rw [hra]
        show (match (if pyFalsy none then
                 match backendResult b with
                 | Except.error e => Except.error e
                 | Except.ok p2 => Except.ok (p2, "pymupdf")
               else Except.ok (none, "pdfplumber")) with
          | Except.error e => Except.error e
          | Except.ok (pages, method) =>
            if pyFalsy pages then Except.ok (ExtractResponse.failure 422 noTextMsg)
            else Except.ok (ExtractResponse.success method
              { employer := extractEmployerInfo (String.intercalate "\n" (pages.getD []))
                employees := extractEmployeesFromPages (pages.getD []) }
              [bestEffortWarning])) = _
        rw [show pyFalsy (none : Option (List String)) = true from rfl, if_pos rfl, hrb]
        show (if pyFalsy (some parts) then Except.ok (ExtractResponse.failure 422 noTextMsg)
            else Except.ok (ExtractResponse.success "pymupdf"
              { employer := extractEmployerInfo (String.intercalate "\n" ((some parts).getD []))
                employees := extractEmployeesFromPages ((some parts).getD []) }
              [bestEffortWarning])) = _
        rw [if_neg (by rw [hfalsy]; exact Bool.false_ne_true)]
        rfl
      constructor
      · rw [hval]
        constructor
        · intro hc
          exact absurd (Except.ok.inj hc) (by intro hc2; cases hc2)
        · intro ⟨_, h2⟩
          rw [hyb] at h2
          cases h2
      · intro _
        exact ⟨_, _, hval⟩
    · have hval : extractEndpointE a b = Except.ok (.failure 422 noTextMsg) := by
        unfold extractEndpointE
        rw [hra]
        show (match (if pyFalsy none then
                 match backendResult b with
                 | Except.error e => Except.error e
                 | Except.ok p2 => Except.ok (p2, "pymupdf")
               else Except.ok (none, "pdfplumber")) with
          | Except.error e => Except.error e
          | Except.ok (pages, method) =>
            if pyFalsy pages then Except.ok (ExtractResponse.failure 422 noTextMsg)
            else Except.ok (ExtractResponse.success method
              { employer := extractEmployerInfo (String.intercalate "\n" (pages.getD []))
                employees := extractEmployeesFromPages (pages.getD []) }
              [bestEffortWarning])) = _
        rw [show pyFalsy (none : Option (List String)) = true from rfl, if_pos rfl, hrb]
        rfl
      constructor
      · rw [hval]
        simp [hya, hyb]
      · intro hor
        rcases hor with h1 | h1
        · rw [hya] at h1; cases h1
        · rw [hyb] at h1; cases h1

/-! ### Support: emitted records never carry an empty-string SSN -/

theorem nineDigits_shape (s g : List Char) (h : nineDigits s = some g) :
    g ≠ [] ∧ ∀ c ∈ g, c.isDigit = true := by
  unfold nineDigits at h
  split at h
  · rename_i a b c d e f g2 h2 i rest
    split at h
    · rename_i hd
      simp only [Bool.and_eq_true] at hd
      obtain ⟨⟨⟨⟨⟨⟨⟨⟨h1, h2b⟩, h3⟩, h4⟩, h5⟩, h6⟩, h7⟩, h8⟩, h9⟩ := hd
      have hg : g = [a, b, c, d, e, f, g2, h2, i] := by
        cases rest with
        | nil =>
          have h' : some [a, b, c, d, e, f, g2, h2, i] = some g := h
          rw [Option.some_inj] at h'
          exact h'.symm
        | cons x t =>
          have h' : (if pyIsWord x = true then (none : Option (List Char))
              else some [a, b, c, d, e, f, g2, h2, i]) = some g := h
          by_cases hw : pyIsWord x = true
          · rw [if_pos hw] at h'
            cases h'
          · rw [if_neg hw] at h'
            rw [Option.some_inj] at h'
            exact h'.symm
      subst hg
      refine ⟨by simp, ?_⟩
      intro x hx
      simp only [List.mem_cons, List.not_mem_nil, or_false] at hx
      rcases hx with rfl | rfl | rfl | rfl | rfl | rfl | rfl | rfl | rfl <;>
        first
        | exact h1 | exact h2b | exact h3 | exact h4 | exact h5
        | exact h6 | exact h7 | exact h8 | exact h9
    · cases h
  · cases h

theorem bare9_step_shape (c : Char) (rest g : List Char)
    (hcont : ∀ g2, bare9Aux (some c) rest = some g2 →
      g2 ≠ [] ∧ ∀ x ∈ g2, x.isDigit = true)
    (h : (match nineDigits (c :: rest) with
          | some g2 => some g2
          | none => bare9Aux (some c) rest) = some g) :
    g ≠ [] ∧ ∀ x ∈ g, x.isDigit = true := by
  cases hn : nineDigits (c :: rest) with
  | some g2 =>
    rw [hn] at h
    rw [Option.some_inj] at h
    subst h
    exact nineDigits_shape _ _ hn
  | none =>
    rw [hn] at h
    exact hcont g h

theorem bare9Aux_shape : ∀ (l : List Char) (prev : Option Char) (g : List Char),
    bare9Aux prev l = some g → g ≠ [] ∧ ∀ x ∈ g, x.isDigit = true := by
  intro l
  induction l with
  | nil => intro prev g h; cases h
  | cons c rest ih =>
    intro prev g h
    cases prev with
    | none =>
      exact bare9_step_shape c rest g (fun g2 => ih (some c) g2) h
    | some p =>
      by_cases hw : pyIsWord p = true
      · have hb : (!pyIsWord p) = false := by rw [hw]; rfl
        have h' : bare9Aux (some c) rest = some g := by
          have heq : bare9Aux (some p) (c :: rest) =
              (match (if (!pyIsWord p) = true then nineDigits (c :: rest) else none) with
               | some g2 => some g2
               | none => bare9Aux (some c) rest) := rfl
          rw [heq, hb] at h
          exact h
        exact ih (some c) g h'
      · have hb : (!pyIsWord p) = true := by
          cases hpp : pyIsWord p
          · rfl
          · exact absurd hpp hw
        have h' : (match nineDigits (c :: rest) with
                   | some g2 => some g2
                   | none => bare9Aux (some c) rest) = some g := by
          have heq : bare9Aux (some p) (c :: rest) =
              (match (if (!pyIsWord p) = true then nineDigits (c :: rest) else none) with
               | some g2 => some g2
               | none => bare9Aux (some c) rest) := rfl
          rw [heq, hb] at h
          exact h
        exact bare9_step_shape c rest g (fun g2 => ih (some c) g2) h'

theorem fmBare9_ne_empty (text : String) : fmBare9 text ≠ some "" := by
  intro h
  unfold fmBare9 at h
  cases hb : bare9Aux none text.data with
  | none => rw [hb] at h; cases h
  | some g =>
    rw [hb] at h
    simp only [stripGroup, Option.map_some'] at h
    rw [Option.some_inj] at h
    obtain ⟨hne, hdig⟩ := bare9Aux_shape text.data none g hb
    have hnows : ∀ c ∈ g, pyIsWs c = false := fun c hc => isDigit_not_ws c (hdig c hc)
    have : pyStrip g = g := pyStrip_no_ws g hnows
    rw [this] at h
    exact hne (congrArg String.data h)

theorem extracted_ssn_ne (text : String) :
    (extractEmployeeFromPage text).ssn ≠ some "" := by
  have hssn : (extractEmployeeFromPage text).ssn =
      pyOrOpt (fmSsnLabel text) (fmBare9 text) := rfl
  rw [hssn]
  unfold pyOrOpt
  cases hfm : fmSsnLabel text with
  | none => exact fmBare9_ne_empty text
  | some s =>
    show (if (s == "") = true then fmBare9 text else some s) ≠ some ""
    by_cases hs : (s == "") = true
    · rw [if_pos hs]
      exact fmBare9_ne_empty text
    · rw [if_neg hs]
      intro hc
      rw [Option.some_inj] at hc
      exact hs (by simp [hc])

theorem emitRecords_mem_eq : ∀ (l : List String) (x : Emp),
    x ∈ emitRecords l → ∃ p, x = extractEmployeeFromPage p := by
  intro l
  induction l with
  | nil => intro x hx; cases hx
  | cons p rest ih =>
    intro x hx
    have hunf : emitRecords (p :: rest) =
        if anyTruthy (extractEmployeeFromPage p) = true then
          extractEmployeeFromPage p :: emitRecords rest
        else emitRecords rest := rfl
    rw [hunf] at hx
    by_cases hc : anyTruthy (extractEmployeeFromPage p) = true
    · rw [if_pos hc] at hx
      rcases List.mem_cons.mp hx with h | h
      · exact ⟨p, h⟩
      · exact ih x h
    · rw [if_neg hc] at hx
      exact ih x hx

theorem buildEmployees_mem_eq : ∀ (target w2 : List String) (x : Emp),
    x ∈ buildEmployees w2 target → ∃ p, x = extractEmployeeFromPage p := by
  intro target
  induction target with
  | nil => intro w2 x hx; cases hx
  | cons p rest ih =>
    intro w2 x hx
    have hunf : buildEmployees w2 (p :: rest) =
        if (pyStrip p.data).isEmpty = true then buildEmployees w2 rest
        else if w2.contains p = true then
          (if anyTruthy (extractEmployeeFromPage p) = true then
            extractEmployeeFromPage p :: buildEmployees w2 rest
          else buildEmployees w2 rest)
        else emitRecords (splitEmployeeSections p) ++ buildEmployees w2 rest := rfl
    rw [hunf] at hx
    by_cases h1 : (pyStrip p.data).isEmpty = true
    · rw [if_pos h1] at hx
      exact ih w2 x hx
    · rw [if_neg h1] at hx
      by_cases h2 : w2.contains p = true
      · rw [if_pos h2] at hx
        by_cases h3 : anyTruthy (extractEmployeeFromPage p) = true
        · rw [if_pos h3] at hx
          rcases List.mem_cons.mp hx with h | h
          · exact ⟨p, h⟩
          · exact ih w2 x h
        · rw [if_neg h3] at hx
          exact ih w2 x hx
      · rw [if_neg h2] at hx
        rcases List.mem_append.mp hx with h | h
        · exact emitRecords_mem_eq _ x h
        · exact ih w2 x h

/-- Every record in the pipeline output has an SSN field that is never the
empty string, which is exactly the hypothesis of the C4 dedup theorem. -/
theorem output_ssn_ne_empty (pages : List String) (e : Emp)
    (h : e ∈ extractEmployeesFromPages pages) : e.ssn ≠ some "" := by
  have hunf : extractEmployeesFromPages pages =
      dedup (buildEmployees (pages.filter isW2Page)
        (if (pages.filter isW2Page).isEmpty = true then pages
         else pages.filter isW2Page)) := rfl
  rw [hunf] at h
  obtain ⟨p, hp⟩ := buildEmployees_mem_eq _ _ e (mem_dedupAux _ _ e h)
  rw [hp]
  exact extracted_ssn_ne p
